import Mathlib

/-!
Verification of the heterorepeat-counting pipeline.

The repository has three Python source files:
* `Hetero_AIML.py` — the full pipeline: `fragment_protein_sequence`,
  `find_hetero_amino_acid_repeats` (counts every substring of length ≥ 2,
  then keeps counts > 1), `check_boundary_repeats`,
  `find_new_boundary_repeats`, `process_protein_sequence`.
* `Phase1-2.py` — `find_heterorepeats`: counts only substrings whose
  characters are pairwise distinct, returns raw counts (no filter).
* `temp.py` — a scanner with the distinctness test and an internal
  `len > 1 and count > 1` filter, plus the same fragmenter and boundary
  checker as `Hetero_AIML.py`.

Python dictionaries built by these functions are modelled as a value
function (`defaultdict(int)` semantics: absent key ↦ 0) together with a
key-membership function, so that `d[k] += v`, `k not in d` and
`for k, v in d.items()` all have exact pointwise renderings.
-/

/-- Model of a Python `defaultdict(int)` (or plain dict of counts):
`val` is the stored count (0 for absent keys) and `mem` records which keys
are present. -/
structure PyDict where
  val : List Char → Nat
  mem : List Char → Bool

/-- The empty dictionary. -/
def emptyD : PyDict := ⟨fun _ => 0, fun _ => false⟩

/-- `d[k] += v` on a `defaultdict(int)`: the key becomes present and its
count grows by `v`. -/
def dincr (d : PyDict) (k : List Char) (v : Nat) : PyDict :=
  ⟨fun u => if u = k then d.val u + v else d.val u,
   fun u => if u = k then true else d.mem u⟩

/-- Python slice `s[i:i+len]`. -/
def substr (s : List Char) (i len : Nat) : List Char := (s.drop i).take len

/-- Number of occurrence positions of `u` in `s`: the positions `i` enumerated
by `range(len(s) - len(u) + 1)` at which `s[i:i+len(u)] == u`. -/
def occCount (u s : List Char) : Nat :=
  (List.range (s.length - u.length + 1)).countP (fun i => decide (substr s i u.length = u))

/-- Python `s[-k:]` for `k = overlap`.  Note `s[-0:]` is the whole string,
which is why `k = 0` is special-cased. -/
def takeLast (s : List Char) (k : Nat) : List Char :=
  if k = 0 then s else s.drop (s.length - k)

/-- `Hetero_AIML.py`, local `repeat_counts` of `find_hetero_amino_acid_repeats`:
for `length in range(2, len(sequence) + 1)` and `i in range(len(sequence) -
length + 1)`, do `repeat_counts[sequence[i:i+length]] += 1`.  No distinctness
test is performed. -/
def repeat_counts (s : List Char) : PyDict :=
  (List.range' 2 (s.length - 1)).foldl (fun d len =>
    (List.range (s.length - len + 1)).foldl (fun d i =>
      dincr d (substr s i len) 1) d) emptyD

/-- `Hetero_AIML.py`, `find_hetero_amino_acid_repeats`: the raw count table
restricted to entries with count > 1 (`{k: v for k, v in repeat_counts.items()
if v > 1}`). -/
def find_hetero_amino_acid_repeats (s : List Char) : PyDict :=
  let raw := repeat_counts s
  ⟨fun u => if raw.mem u && decide (1 < raw.val u) then raw.val u else 0,
   fun u => raw.mem u && decide (1 < raw.val u)⟩

/-- Python `len(set(u)) == len(u)`: all characters of `u` are pairwise
distinct. -/
def heteroB (u : List Char) : Bool := u.dedup.length == u.length

/-- The shared scanning loop of `Phase1-2.py`'s `find_heterorepeats` and
`temp.py`'s `find_hetero_amino_acid_repeats` (both build the same local
`freq`): a substring is counted only when `len(set(substring)) ==
len(substring)`. -/
def distinct_freq (s : List Char) : PyDict :=
  (List.range' 2 (s.length - 1)).foldl (fun d len =>
    (List.range (s.length - len + 1)).foldl (fun d i =>
      if heteroB (substr s i len) then dincr d (substr s i len) 1 else d) d) emptyD

/-- `Phase1-2.py`, `find_heterorepeats`: returns the raw `freq` table with no
filtering. -/
def find_heterorepeats (s : List Char) : PyDict := distinct_freq s

namespace Temp

/-- `temp.py`, `find_hetero_amino_acid_repeats`: the distinct-character count
table restricted by `len(repeat) > 1 and count > 1`. -/
def find_hetero_amino_acid_repeats (s : List Char) : PyDict :=
  let freq := distinct_freq s
  ⟨fun u => if freq.mem u && (decide (1 < u.length) && decide (1 < freq.val u))
            then freq.val u else 0,
   fun u => freq.mem u && (decide (1 < u.length) && decide (1 < freq.val u))⟩

end Temp

/-- The chunk list `[s[i:i+L] for i in range(0, len(s), L)]` for a positive
step `L`: `ceil(len(s)/L)` chunks. -/
def posChunks (L : Nat) (s : List Char) : List (List Char) :=
  (List.range ((s.length + L - 1) / L)).map (fun j => substr s (j * L) L)

/-- `Hetero_AIML.py` (and identically `temp.py`), `fragment_protein_sequence`:
`[sequence[i:i+max_length] for i in range(0, len(sequence), max_length)]`.
With `max_length = 0` Python's `range` raises `ValueError` (modelled as
`none`); with `max_length < 0` the range `range(0, n, max_length)` is empty,
so the comprehension silently yields `[]`. -/
def fragment_protein_sequence (s : List Char) (max_length : Int) :
    Option (List (List Char)) :=
  if max_length = 0 then none
  else if max_length < 0 then some []
  else some (posChunks max_length.toNat s)

/-- `fragments[i][-overlap:] if len(fragments[i]) >= overlap else fragments[i]`. -/
def left_overlap (fragments : List (List Char)) (overlap i : Nat) : List Char :=
  let f := fragments.getD i []
  if overlap ≤ f.length then takeLast f overlap else f

/-- `fragments[i+1][:overlap] if len(fragments[i+1]) >= overlap else fragments[i+1]`. -/
def right_overlap (fragments : List (List Char)) (overlap i : Nat) : List Char :=
  let f := fragments.getD (i + 1) []
  if overlap ≤ f.length then f.take overlap else f

/-- The scan of the overlap region `left_overlap + right_overlap` of the
adjacent pair `(i, i+1)` (the `boundary_repeats` local of
`check_boundary_repeats` and `find_new_boundary_repeats`). -/
def boundary_table (fragments : List (List Char)) (overlap i : Nat) : PyDict :=
  find_hetero_amino_acid_repeats
    (left_overlap fragments overlap i ++ right_overlap fragments overlap i)

/-- `any(aa in left_overlap for aa in substring) and
any(aa in right_overlap for aa in substring)`. -/
def spansB (u l r : List Char) : Bool :=
  (u.any fun aa => l.contains aa) && (u.any fun aa => r.contains aa)

/-- The condition under which the boundary loops add `boundary_repeats[u]`:
`u` is a key of the overlap-region table and passes the character-membership
test. -/
def boundary_hit (fragments : List (List Char)) (overlap i : Nat)
    (u : List Char) : Bool :=
  (boundary_table fragments overlap i).mem u &&
    spansB u (left_overlap fragments overlap i) (right_overlap fragments overlap i)

/-- `Hetero_AIML.py` (and identically `temp.py`), `check_boundary_repeats`:
for each adjacent pair, every overlap-region key passing the membership test
has its region count added to `final_repeats` (the item loop
`final_repeats[substring] += count` rendered pointwise). -/
def check_boundary_repeats (fragments : List (List Char)) (final_repeats : PyDict)
    (overlap : Nat) : PyDict :=
  (List.range (fragments.length - 1)).foldl (fun final i =>
    ⟨fun u => final.val u +
        (if boundary_hit fragments overlap i u
         then (boundary_table fragments overlap i).val u else 0),
     fun u => final.mem u || boundary_hit fragments overlap i u⟩) final_repeats

/-- `Hetero_AIML.py`, `find_new_boundary_repeats`: like the boundary check but
accumulating into a fresh `new_repeats`, and only for keys with
`substring not in final_repeats` (`final_repeats` is not mutated here). -/
def find_new_boundary_repeats (fragments : List (List Char)) (final_repeats : PyDict)
    (overlap : Nat) : PyDict :=
  (List.range (fragments.length - 1)).foldl (fun new i =>
    ⟨fun u => new.val u +
        (if boundary_hit fragments overlap i u && !final_repeats.mem u
         then (boundary_table fragments overlap i).val u else 0),
     fun u => new.mem u || (boundary_hit fragments overlap i u && !final_repeats.mem u)⟩)
    emptyD

/-- `for k, v in b.items(): a[k] += v`. -/
def dmerge (a b : PyDict) : PyDict :=
  ⟨fun u => a.val u + (if b.mem u then b.val u else 0),
   fun u => a.mem u || b.mem u⟩

/-- Step 1 of `process_protein_sequence`: sum the per-fragment scanner
outputs into `final_repeats`. -/
def step1_repeats (fragments : List (List Char)) : PyDict :=
  fragments.foldl (fun final f => dmerge final (find_hetero_amino_acid_repeats f)) emptyD

/-- `Hetero_AIML.py`, `process_protein_sequence`: fragment (with the default
`max_length = 1000`, for which `fragment_protein_sequence` returns the chunk
list), scan each fragment, apply the boundary check, then merge the "new"
boundary entries. -/
def process_protein_sequence (sequence : List Char) (overlap : Nat) : PyDict :=
  let fragments := posChunks 1000 sequence
  let final1 := step1_repeats fragments
  let final2 := check_boundary_repeats fragments final1 overlap
  let new := find_new_boundary_repeats fragments final2 overlap
  dmerge final2 new

/-- Modelled from the spec (§4.2 Scanner and §4.4 Aggregator), for the
refinement comparison of claim C4: raw counts of substrings of length ≥ 2
with pairwise-distinct characters, then the final `length ≥ 2` / `count ≥ 2`
filter. -/
def specScannerFiltered (s : List Char) : PyDict :=
  ⟨fun u => if 2 ≤ u.length ∧ u.Nodup ∧ 2 ≤ occCount u s then occCount u s else 0,
   fun u => decide (2 ≤ u.length ∧ u.Nodup ∧ 2 ≤ occCount u s)⟩

/-! ### Basic dictionary and fold lemmas -/

theorem dmerge_val (a b : PyDict) (u : List Char) :
    (dmerge a b).val u = a.val u + (if b.mem u then b.val u else 0) := rfl

theorem dmerge_mem (a b : PyDict) (u : List Char) :
    (dmerge a b).mem u = (a.mem u || b.mem u) := rfl

theorem foldl_dincr_val (f : Nat → List Char) (l : List Nat) (d : PyDict)
    (u : List Char) :
    (l.foldl (fun d i => dincr d (f i) 1) d).val u
      = d.val u + l.countP (fun i => decide (f i = u)) := by
  induction l generalizing d with
  | nil => simp
  | cons a t ih =>
    rw [List.foldl_cons, ih, List.countP_cons]
    simp only [dincr, decide_eq_true_eq]
    by_cases h : f a = u
    · subst h
      simp
      omega
    · have h' : ¬u = f a := fun hc => h hc.symm
      simp [h, h']

theorem foldl_dincr_mem (f : Nat → List Char) (l : List Nat) (d : PyDict)
    (u : List Char) :
    (l.foldl (fun d i => dincr d (f i) 1) d).mem u
      = (d.mem u || l.any (fun i => decide (f i = u))) := by
  induction l generalizing d with
  | nil => simp
  | cons a t ih =>
    rw [List.foldl_cons, ih, List.any_cons]
    simp only [dincr, decide_eq_true_eq]
    by_cases h : f a = u
    · subst h
      simp
    · have h' : ¬u = f a := fun hc => h hc.symm
      simp [h, h']

theorem foldl_dincr_guard_val (f : Nat → List Char) (g : List Char → Bool)
    (l : List Nat) (d : PyDict) (u : List Char) :
    (l.foldl (fun d i => if g (f i) then dincr d (f i) 1 else d) d).val u
      = d.val u + (if g u then l.countP (fun i => decide (f i = u)) else 0) := by
  induction l generalizing d with
  | nil => simp
  | cons a t ih =>
    rw [List.foldl_cons]
    by_cases hg : g (f a)
    · rw [if_pos hg, ih, List.countP_cons]
      simp only [dincr, decide_eq_true_eq]
      by_cases h : f a = u
      · subst h
        simp [hg]
        omega
      · have h' : ¬u = f a := fun hc => h hc.symm
        simp [h, h']
    · rw [if_neg hg, ih, List.countP_cons]
      by_cases h : f a = u
      · subst h
        simp [hg]
      · simp [h]

theorem foldl_dincr_guard_mem (f : Nat → List Char) (g : List Char → Bool)
    (l : List Nat) (d : PyDict) (u : List Char) :
    (l.foldl (fun d i => if g (f i) then dincr d (f i) 1 else d) d).mem u
      = (d.mem u || (g u && l.any (fun i => decide (f i = u)))) := by
  induction l generalizing d with
  | nil => simp
  | cons a t ih =>
    rw [List.foldl_cons]
    by_cases hg : g (f a)
    · rw [if_pos hg, ih, List.any_cons]
      simp only [dincr, decide_eq_true_eq]
      by_cases h : f a = u
      · subst h
        simp [hg]
      · have h' : ¬u = f a := fun hc => h hc.symm
        simp [h, h']
    · rw [if_neg hg, ih, List.any_cons]
      by_cases h : f a = u
      · subst h
        simp [hg]
      · simp [h]

theorem sum_map_ite_eq (L : List Nat) (hL : L.Nodup) (k : Nat) (c : Nat) :
    (L.map (fun x => if x = k then c else 0)).sum = if k ∈ L then c else 0 := by
  induction L with
  | nil => simp
  | cons a t ih =>
    rw [List.map_cons, List.sum_cons, ih hL.of_cons]
    rcases List.nodup_cons.mp hL with ⟨ha, -⟩
    by_cases h : a = k
    · subst h
      simp [ha]
    · have h' : ¬k = a := fun hc => h hc.symm
      simp [h, h']

/-! ### Characterization of the scanners by occurrence counts -/

theorem length_substr (s : List Char) (i len : Nat) :
    (substr s i len).length = min len (s.length - i) := by
  simp [substr]

theorem occCount_of_big {u s : List Char} (h : s.length < u.length) :
    occCount u s = 0 := by
  apply List.countP_eq_zero.mpr
  intro i _
  simp only [decide_eq_true_eq]
  intro he
  have hl := congrArg List.length he
  simp [substr] at hl
  omega

theorem foldl_scan_val (s : List Char) (L : List Nat) (d : PyDict) (u : List Char) :
    (L.foldl (fun d len => (List.range (s.length - len + 1)).foldl
        (fun d i => dincr d (substr s i len) 1) d) d).val u
      = d.val u + (L.map (fun len =>
          (List.range (s.length - len + 1)).countP
            (fun i => decide (substr s i len = u)))).sum := by
  induction L generalizing d with
  | nil => simp
  | cons a t ih =>
    rw [List.foldl_cons, ih, foldl_dincr_val]
    simp [Nat.add_assoc]

theorem foldl_scan_mem (s : List Char) (L : List Nat) (d : PyDict) (u : List Char) :
    (L.foldl (fun d len => (List.range (s.length - len + 1)).foldl
        (fun d i => dincr d (substr s i len) 1) d) d).mem u
      = (d.mem u || L.any (fun len =>
          (List.range (s.length - len + 1)).any
            (fun i => decide (substr s i len = u)))) := by
  induction L generalizing d with
  | nil => simp
  | cons a t ih =>
    rw [List.foldl_cons, ih, foldl_dincr_mem]
    simp [Bool.or_assoc]

theorem repeat_counts_val (s u : List Char) :
    (repeat_counts s).val u = if 2 ≤ u.length then occCount u s else 0 := by
  rw [repeat_counts, foldl_scan_val]
  simp only [emptyD, Nat.zero_add]
  have hcongr : ∀ len ∈ List.range' 2 (s.length - 1),
      (List.range (s.length - len + 1)).countP (fun i => decide (substr s i len = u))
        = if len = u.length then occCount u s else 0 := by
    intro len hlen
    rw [List.mem_range'_1] at hlen
    by_cases h : len = u.length
    · subst h
      rw [if_pos rfl]
      rfl
    · rw [if_neg h]
      apply List.countP_eq_zero.mpr
      intro i hi
      rw [List.mem_range] at hi
      simp only [decide_eq_true_eq]
      intro he
      have hl := congrArg List.length he
      simp [substr] at hl
      omega
  rw [List.map_congr_left hcongr, sum_map_ite_eq _ (List.nodup_range' _ _) _ _]
  by_cases h2 : 2 ≤ u.length
  · by_cases h3 : u.length ≤ s.length
    · rw [if_pos (List.mem_range'_1.mpr (by omega)), if_pos h2]
    · rw [if_neg (fun hmem => by rw [List.mem_range'_1] at hmem; omega),
        if_pos h2, occCount_of_big (by omega)]
  · rw [if_neg (fun hmem => by rw [List.mem_range'_1] at hmem; omega), if_neg h2]

theorem repeat_counts_mem (s u : List Char) :
    (repeat_counts s).mem u = true ↔ 2 ≤ u.length ∧ 1 ≤ occCount u s := by
  rw [repeat_counts, foldl_scan_mem]
  simp only [emptyD, Bool.false_or, List.any_eq_true, List.mem_range'_1,
    List.mem_range, decide_eq_true_eq]
  constructor
  · rintro ⟨len, hlen, i, hi, he⟩
    have hl := congrArg List.length he
    simp [substr] at hl
    have hlu : len = u.length := by omega
    subst hlu
    refine ⟨by omega, ?_⟩
    have : 0 < occCount u s := by
      apply List.countP_pos_iff.mpr
      exact ⟨i, List.mem_range.mpr hi, by simp [he]⟩
    omega
  · rintro ⟨h2, h1⟩
    have : 0 < occCount u s := by omega
    obtain ⟨i, hi, he⟩ := List.countP_pos_iff.mp this
    rw [List.mem_range] at hi
    simp only [decide_eq_true_eq] at he
    have hl := congrArg List.length he
    simp [substr] at hl
    exact ⟨u.length, by omega, i, by omega, he⟩

theorem foldl_scan_guard_val (s : List Char) (L : List Nat) (d : PyDict) (u : List Char) :
    (L.foldl (fun d len => (List.range (s.length - len + 1)).foldl
        (fun d i => if heteroB (substr s i len) then dincr d (substr s i len) 1 else d) d) d).val u
      = d.val u + (L.map (fun len =>
          if heteroB u then (List.range (s.length - len + 1)).countP
            (fun i => decide (substr s i len = u)) else 0)).sum := by
  induction L generalizing d with
  | nil => simp
  | cons a t ih =>
    rw [List.foldl_cons, ih, foldl_dincr_guard_val]
    simp [Nat.add_assoc]

theorem foldl_scan_guard_mem (s : List Char) (L : List Nat) (d : PyDict) (u : List Char) :
    (L.foldl (fun d len => (List.range (s.length - len + 1)).foldl
        (fun d i => if heteroB (substr s i len) then dincr d (substr s i len) 1 else d) d) d).mem u
      = (d.mem u || (heteroB u && L.any (fun len =>
          (List.range (s.length - len + 1)).any
            (fun i => decide (substr s i len = u))))) := by
  induction L generalizing d with
  | nil => simp
  | cons a t ih =>
    rw [List.foldl_cons, ih, foldl_dincr_guard_mem]
    cases hh : heteroB u <;> simp [hh, Bool.or_assoc]

theorem heteroB_iff (u : List Char) : heteroB u = true ↔ u.Nodup := by
  rw [heteroB, beq_iff_eq]
  constructor
  · intro h
    have hd := (List.dedup_sublist u).eq_of_length h
    rw [← hd]
    exact u.nodup_dedup
  · intro h
    rw [List.dedup_eq_self.mpr h]

theorem distinct_freq_val (s u : List Char) :
    (distinct_freq s).val u
      = if 2 ≤ u.length ∧ u.Nodup then occCount u s else 0 := by
  rw [distinct_freq, foldl_scan_guard_val]
  simp only [emptyD, Nat.zero_add]
  by_cases hh : heteroB u
  · have hnd : u.Nodup := (heteroB_iff u).mp hh
    simp only [hh, if_true]
    have := repeat_counts_val s u
    rw [repeat_counts, foldl_scan_val] at this
    simp only [emptyD, Nat.zero_add] at this
    rw [this]
    by_cases h2 : 2 ≤ u.length
    · rw [if_pos h2, if_pos ⟨h2, hnd⟩]
    · rw [if_neg h2, if_neg (fun hc => h2 hc.1)]
  · have hnd : ¬u.Nodup := fun h => hh ((heteroB_iff u).mpr h)
    simp only [hh, Bool.false_eq_true, if_false]
    rw [if_neg (fun hc => hnd hc.2)]
    simp

theorem distinct_freq_mem (s u : List Char) :
    (distinct_freq s).mem u = true ↔ 2 ≤ u.length ∧ u.Nodup ∧ 1 ≤ occCount u s := by
  rw [distinct_freq, foldl_scan_guard_mem]
  simp only [emptyD, Bool.false_or, Bool.and_eq_true]
  rw [heteroB_iff]
  have := repeat_counts_mem s u
  rw [repeat_counts, foldl_scan_mem] at this
  simp only [emptyD, Bool.false_or] at this
  rw [this]
  tauto

/-- The filtered scanner of `Hetero_AIML.py` holds exactly the substrings of
length ≥ 2 occurring more than once, with their raw occurrence counts —
distinctness of characters is not consulted. -/
theorem find_hetero_val (s u : List Char) :
    (find_hetero_amino_acid_repeats s).val u
      = if 2 ≤ u.length ∧ 1 < occCount u s then occCount u s else 0 := by
  rw [find_hetero_amino_acid_repeats]
  simp only
  by_cases h : 2 ≤ u.length ∧ 1 < occCount u s
  · rw [if_pos h, repeat_counts_val, if_pos h.1]
    have hmem : (repeat_counts s).mem u = true :=
      (repeat_counts_mem s u).mpr ⟨h.1, by omega⟩
    rw [if_pos]
    simp [hmem, repeat_counts_val, if_pos h.1, h.2]
  · rw [if_neg h]
    rcases not_and_or.mp h with h2 | h1
    · rw [if_neg]
      simp only [Bool.and_eq_true, decide_eq_true_eq, not_and]
      intro hmem
      exact absurd ((repeat_counts_mem s u).mp hmem).1 h2
    · rw [if_neg]
      simp only [Bool.and_eq_true, decide_eq_true_eq, not_and]
      intro _
      rw [repeat_counts_val]
      split
      · omega
      · omega

theorem find_hetero_mem (s u : List Char) :
    (find_hetero_amino_acid_repeats s).mem u = true ↔
      2 ≤ u.length ∧ 1 < occCount u s := by
  rw [find_hetero_amino_acid_repeats]
  simp only [Bool.and_eq_true, decide_eq_true_eq, repeat_counts_mem, repeat_counts_val]
  constructor
  · rintro ⟨⟨h2, -⟩, h1⟩
    rw [if_pos h2] at h1
    exact ⟨h2, h1⟩
  · rintro ⟨h2, h1⟩
    exact ⟨⟨h2, by omega⟩, by rw [if_pos h2]; exact h1⟩

/-- A key absent from the filtered scanner output has value 0, so the guarded
sum in a merge collapses. -/
theorem find_hetero_ite_val (s u : List Char) :
    (if (find_hetero_amino_acid_repeats s).mem u
     then (find_hetero_amino_acid_repeats s).val u else 0)
      = (find_hetero_amino_acid_repeats s).val u := by
  cases h : (find_hetero_amino_acid_repeats s).mem u
  · rw [find_hetero_val]
    simp only [Bool.false_eq_true, if_false]
    rw [if_neg]
    intro hc
    rw [(find_hetero_mem s u).mpr hc] at h
    cases h
  · simp

theorem temp_find_val (s u : List Char) :
    (Temp.find_hetero_amino_acid_repeats s).val u
      = if 2 ≤ u.length ∧ u.Nodup ∧ 1 < occCount u s then occCount u s else 0 := by
  rw [Temp.find_hetero_amino_acid_repeats]
  simp only
  by_cases h : 2 ≤ u.length ∧ u.Nodup ∧ 1 < occCount u s
  · have hmem : (distinct_freq s).mem u = true :=
      (distinct_freq_mem s u).mpr ⟨h.1, h.2.1, by omega⟩
    have hcond : ((distinct_freq s).mem u
        && (decide (1 < u.length) && decide (1 < (distinct_freq s).val u))) = true := by
      rw [hmem, distinct_freq_val, if_pos ⟨h.1, h.2.1⟩]
      simp only [Bool.true_and, Bool.and_eq_true, decide_eq_true_eq]
      exact ⟨by omega, h.2.2⟩
    rw [if_pos h, if_pos hcond, distinct_freq_val, if_pos ⟨h.1, h.2.1⟩]
  · rw [if_neg h, if_neg]
    simp only [Bool.and_eq_true, decide_eq_true_eq, not_and]
    intro hmem h2
    obtain ⟨hl, hnd, -⟩ := (distinct_freq_mem s u).mp hmem
    rw [distinct_freq_val, if_pos ⟨hl, hnd⟩]
    intro h1
    exact h ⟨hl, hnd, h1⟩

theorem temp_find_mem (s u : List Char) :
    (Temp.find_hetero_amino_acid_repeats s).mem u = true ↔
      2 ≤ u.length ∧ u.Nodup ∧ 1 < occCount u s := by
  rw [Temp.find_hetero_amino_acid_repeats]
  simp only [Bool.and_eq_true, decide_eq_true_eq, distinct_freq_mem, distinct_freq_val]
  constructor
  · rintro ⟨⟨h2, hnd, -⟩, -, h1⟩
    rw [if_pos ⟨h2, hnd⟩] at h1
    exact ⟨h2, hnd, h1⟩
  · rintro ⟨h2, hnd, h1⟩
    exact ⟨⟨h2, hnd, by omega⟩, by omega, by rw [if_pos ⟨h2, hnd⟩]; exact h1⟩

/-! ### A recursive occurrence counter, for fast evaluation on long inputs -/

/-- Occurrences of `u` as a prefix of each suffix of `s`. -/
def occAux (u : List Char) : List Char → Nat
  | [] => 0
  | c :: t => (if u.isPrefixOf (c :: t) then 1 else 0) + occAux u t

theorem occCount_eq_occAux (u : List Char) (hu : u ≠ []) (s : List Char) :
    occCount u s = occAux u s := by
  induction s with
  | nil =>
    rw [occAux]
    apply List.countP_eq_zero.mpr
    intro i _
    simp only [decide_eq_true_eq]
    intro he
    have hl := congrArg List.length he
    simp only [length_substr, List.length_nil, Nat.zero_sub, Nat.min_zero] at hl
    exact hu (List.length_eq_zero.mp hl.symm)
  | cons c t ih =>
    rw [occAux, ← ih]
    by_cases hlen : u.length ≤ t.length + 1
    · have hr : (c :: t).length - u.length + 1 = (t.length + 1 - u.length) + 1 := by
        simp only [List.length_cons]
      rw [occCount, hr, List.range_succ_eq_map, List.countP_cons, List.countP_map]
      have hocc : occCount u t
          = (List.range (t.length + 1 - u.length)).countP
              (fun i => decide (substr t i u.length = u)) := by
        by_cases he : u.length ≤ t.length
        · rw [occCount]
          have : t.length - u.length + 1 = t.length + 1 - u.length := by omega
          rw [this]
        · have h1 : t.length + 1 - u.length = 0 := by omega
          rw [h1, occCount_of_big (show t.length < u.length by omega)]
          simp
      rw [hocc]
      have hp : (decide (substr (c :: t) 0 u.length = u))
          = (u.isPrefixOf (c :: t) : Bool) := by
        cases hp : (u.isPrefixOf (c :: t) : Bool)
        · simp only [decide_eq_false_iff_not]
          intro he
          rw [← Bool.not_eq_true] at hp
          apply hp
          rw [List.isPrefixOf_iff_prefix, List.prefix_iff_eq_take]
          rw [substr, List.drop_zero] at he
          exact he.symm
        · simp only [decide_eq_true_eq]
          rw [List.isPrefixOf_iff_prefix, List.prefix_iff_eq_take] at hp
          rw [substr, List.drop_zero]
          exact hp.symm
      have hcomp : (List.range (t.length + 1 - u.length)).countP
            ((fun i => decide (substr (c :: t) i u.length = u)) ∘ Nat.succ)
          = (List.range (t.length + 1 - u.length)).countP
            (fun i => decide (substr t i u.length = u)) := by
        apply List.countP_congr
        intro i _
        rfl
      rw [hcomp, hp]
      cases u.isPrefixOf (c :: t) <;> simp [Nat.add_comm]
    · have h0 : occCount u t = 0 := occCount_of_big (by omega)
      have hpre : (u.isPrefixOf (c :: t) : Bool) = false := by
        rw [← Bool.not_eq_true, List.isPrefixOf_iff_prefix]
        intro hp
        have := hp.length_le
        simp only [List.length_cons] at this
        omega
      rw [h0, hpre,
        occCount_of_big (show (c :: t).length < u.length by simp only [List.length_cons]; omega)]
      simp


/-- Occurrences of a pattern starting with `a ≠ c` are unaffected by a
`replicate`-of-`c` padding in front. -/
theorem occAux_replicate_skip (a c : Char) (hne : a ≠ c) (u : List Char)
    (n : Nat) (t : List Char) :
    occAux (a :: u) (List.replicate n c ++ t) = occAux (a :: u) t := by
  induction n with
  | zero => rfl
  | succ m ih =>
    rw [List.replicate_succ, List.cons_append, occAux, ih]
    have hpre : ((a :: u).isPrefixOf (c :: (List.replicate m c ++ t)) : Bool) = false := by
      rw [← Bool.not_eq_true, List.isPrefixOf_iff_prefix]
      intro hp
      rcases hp with ⟨r, hr⟩
      rw [List.cons_append] at hr
      exact hne (List.head_eq_of_cons_eq hr)
    rw [hpre]
    simp

/-! ### Boundary folds as sums -/

theorem check_boundary_val (fragments : List (List Char)) (T : PyDict)
    (overlap : Nat) (u : List Char) :
    (check_boundary_repeats fragments T overlap).val u
      = T.val u + ((List.range (fragments.length - 1)).map (fun i =>
          if boundary_hit fragments overlap i u
          then (boundary_table fragments overlap i).val u else 0)).sum := by
  rw [check_boundary_repeats]
  generalize fragments.length - 1 = n
  induction n generalizing T with
  | zero => simp
  | succ m ih =>
    rw [List.range_succ, List.foldl_append, List.map_append, List.sum_append]
    simp only [List.foldl_cons, List.foldl_nil, List.map_cons, List.map_nil,
      List.sum_cons, List.sum_nil, Nat.add_zero]
    rw [ih]
    omega

theorem check_boundary_mem (fragments : List (List Char)) (T : PyDict)
    (overlap : Nat) (u : List Char) :
    (check_boundary_repeats fragments T overlap).mem u
      = (T.mem u || (List.range (fragments.length - 1)).any
          (fun i => boundary_hit fragments overlap i u)) := by
  rw [check_boundary_repeats]
  generalize fragments.length - 1 = n
  induction n generalizing T with
  | zero => simp
  | succ m ih =>
    rw [List.range_succ, List.foldl_append, List.any_append]
    simp only [List.foldl_cons, List.foldl_nil, List.any_cons, List.any_nil,
      Bool.or_false]
    rw [ih]
    cases T.mem u <;> simp [Bool.or_assoc]

theorem find_new_val (fragments : List (List Char)) (T : PyDict)
    (overlap : Nat) (u : List Char) :
    (find_new_boundary_repeats fragments T overlap).val u
      = ((List.range (fragments.length - 1)).map (fun i =>
          if boundary_hit fragments overlap i u && !T.mem u
          then (boundary_table fragments overlap i).val u else 0)).sum := by
  rw [find_new_boundary_repeats]
  generalize fragments.length - 1 = n
  suffices h : ∀ (d : PyDict),
      ((List.range n).foldl (fun new i =>
        ⟨fun u => new.val u +
            (if boundary_hit fragments overlap i u && !T.mem u
             then (boundary_table fragments overlap i).val u else 0),
         fun u => new.mem u || (boundary_hit fragments overlap i u && !T.mem u)⟩) d).val u
        = d.val u + ((List.range n).map (fun i =>
            if boundary_hit fragments overlap i u && !T.mem u
            then (boundary_table fragments overlap i).val u else 0)).sum by
    rw [h emptyD]
    simp [emptyD]
  intro d
  induction n generalizing d with
  | zero => simp
  | succ m ih =>
    rw [List.range_succ, List.foldl_append, List.map_append, List.sum_append]
    simp only [List.foldl_cons, List.foldl_nil, List.map_cons, List.map_nil,
      List.sum_cons, List.sum_nil, Nat.add_zero]
    rw [ih]
    omega

theorem find_new_mem (fragments : List (List Char)) (T : PyDict)
    (overlap : Nat) (u : List Char) :
    (find_new_boundary_repeats fragments T overlap).mem u
      = (List.range (fragments.length - 1)).any
          (fun i => boundary_hit fragments overlap i u && !T.mem u) := by
  rw [find_new_boundary_repeats]
  generalize fragments.length - 1 = n
  suffices h : ∀ (d : PyDict),
      ((List.range n).foldl (fun new i =>
        ⟨fun u => new.val u +
            (if boundary_hit fragments overlap i u && !T.mem u
             then (boundary_table fragments overlap i).val u else 0),
         fun u => new.mem u || (boundary_hit fragments overlap i u && !T.mem u)⟩) d).mem u
        = (d.mem u || (List.range n).any
            (fun i => boundary_hit fragments overlap i u && !T.mem u)) by
    rw [h emptyD]
    simp [emptyD]
  intro d
  induction n generalizing d with
  | zero => simp
  | succ m ih =>
    rw [List.range_succ, List.foldl_append, List.any_append]
    simp only [List.foldl_cons, List.foldl_nil, List.any_cons, List.any_nil,
      Bool.or_false]
    rw [ih]
    cases d.mem u <;> simp [Bool.or_assoc]

/-- After `check_boundary_repeats` has run, every key that any boundary pair
can contribute is already present, so `find_new_boundary_repeats` finds
nothing: its table is empty. -/
theorem find_new_after_check_val (fragments : List (List Char)) (T : PyDict)
    (overlap : Nat) (u : List Char) :
    (find_new_boundary_repeats fragments
        (check_boundary_repeats fragments T overlap) overlap).val u = 0 := by
  rw [find_new_val]
  apply List.sum_eq_zero
  intro x hx
  rw [List.mem_map] at hx
  obtain ⟨i, hi, hix⟩ := hx
  rw [← hix]
  by_cases hhit : boundary_hit fragments overlap i u
  · have hmem : (check_boundary_repeats fragments T overlap).mem u = true := by
      rw [check_boundary_mem, Bool.or_eq_true]
      exact Or.inr (List.any_eq_true.mpr ⟨i, hi, hhit⟩)
    rw [hmem]
    simp
  · rw [if_neg]
    simp only [Bool.and_eq_true, Bool.not_eq_true', not_and]
    intro hc
    exact absurd hc hhit

theorem find_new_after_check_mem (fragments : List (List Char)) (T : PyDict)
    (overlap : Nat) (u : List Char) :
    (find_new_boundary_repeats fragments
        (check_boundary_repeats fragments T overlap) overlap).mem u = false := by
  rw [find_new_mem]
  rw [List.any_eq_false]
  intro i hi
  simp only [Bool.and_eq_true, Bool.not_eq_true', not_and]
  intro hhit hc
  rw [check_boundary_mem, Bool.or_eq_false_iff, List.any_eq_false] at hc
  exact hc.2 i hi hhit

/-! ### Step 1 (per-fragment sums) -/

theorem step1_val (fragments : List (List Char)) (u : List Char) :
    (step1_repeats fragments).val u
      = (fragments.map (fun f => (find_hetero_amino_acid_repeats f).val u)).sum := by
  rw [step1_repeats]
  suffices h : ∀ (d : PyDict), (fragments.foldl
      (fun final f => dmerge final (find_hetero_amino_acid_repeats f)) d).val u
      = d.val u + (fragments.map (fun f => (find_hetero_amino_acid_repeats f).val u)).sum by
    rw [h emptyD]
    simp [emptyD]
  intro d
  induction fragments generalizing d with
  | nil => simp
  | cons f t ih =>
    rw [List.foldl_cons, ih, List.map_cons, List.sum_cons, dmerge_val,
      find_hetero_ite_val]
    omega

theorem step1_mem (fragments : List (List Char)) (u : List Char) :
    (step1_repeats fragments).mem u
      = fragments.any (fun f => (find_hetero_amino_acid_repeats f).mem u) := by
  rw [step1_repeats]
  suffices h : ∀ (d : PyDict), (fragments.foldl
      (fun final f => dmerge final (find_hetero_amino_acid_repeats f)) d).mem u
      = (d.mem u || fragments.any (fun f => (find_hetero_amino_acid_repeats f).mem u)) by
    rw [h emptyD]
    simp [emptyD]
  intro d
  induction fragments generalizing d with
  | nil => simp
  | cons f t ih =>
    rw [List.foldl_cons, ih, List.any_cons, dmerge_mem]
    simp [Bool.or_assoc]

/-! ### The fragmenter -/

theorem posChunks_nil (L : Nat) (hL : 1 ≤ L) : posChunks L [] = [] := by
  rw [posChunks]
  simp only [List.length_nil, Nat.zero_add]
  rw [Nat.div_eq_of_lt (by omega)]
  rfl

theorem posChunks_cons (L : Nat) (hL : 1 ≤ L) (s : List Char) (hs : s ≠ []) :
    posChunks L s = s.take L :: posChunks L (s.drop L) := by
  have hn : 1 ≤ s.length := List.length_pos.mpr hs
  have hcount : (s.length + L - 1) / L = (s.length - 1) / L + 1 := by
    have h1 : s.length + L - 1 = (s.length - 1) + L := by omega
    rw [h1, Nat.add_div_right _ (by omega)]
  have hcount2 : ((s.drop L).length + L - 1) / L = (s.length - 1) / L := by
    rw [List.length_drop]
    by_cases h : L ≤ s.length
    · have h1 : s.length - L + L - 1 = s.length - 1 := by omega
      rw [h1]
    · have h0 : s.length - L = 0 := by omega
      rw [h0, Nat.zero_add, Nat.div_eq_of_lt (by omega), Nat.div_eq_of_lt (by omega)]
  rw [posChunks, posChunks, hcount, hcount2, List.range_succ_eq_map, List.map_cons,
    List.map_map]
  congr 1
  · rw [Nat.zero_mul, substr, List.drop_zero]
  · apply List.map_congr_left
    intro j _
    show substr s (Nat.succ j * L) L = substr (s.drop L) (j * L) L
    rw [substr, substr, List.drop_drop]
    congr 2
    rw [Nat.succ_mul, Nat.mul_comm j L]
    exact Nat.add_comm _ _

theorem posChunks_single (L : Nat) (hL : 1 ≤ L) (s : List Char) (hs : s ≠ [])
    (hlen : s.length ≤ L) : posChunks L s = [s] := by
  rw [posChunks_cons L hL s hs, List.take_of_length_le hlen,
    List.drop_eq_nil_of_le hlen, posChunks_nil L hL]

/-- The chunk list concatenates back to the input, every chunk has length
at most `L`, and every chunk but the last has length exactly `L`. -/
theorem posChunks_spec (L : Nat) (hL : 1 ≤ L) :
    ∀ (n : Nat) (s : List Char), s.length ≤ n →
      (posChunks L s).flatten = s ∧
      (∀ f ∈ posChunks L s, f.length ≤ L) ∧
      (∀ i, i + 1 < (posChunks L s).length → ((posChunks L s).getD i []).length = L) := by
  intro n
  induction n with
  | zero =>
    intro s hs
    have : s = [] := List.length_eq_zero.mp (by omega)
    subst this
    rw [posChunks_nil L hL]
    refine ⟨rfl, by simp, by simp⟩
  | succ m ih =>
    intro s hs
    by_cases h : s = []
    · subst h
      rw [posChunks_nil L hL]
      refine ⟨rfl, by simp, by simp⟩
    · rw [posChunks_cons L hL s h]
      have hlen1 : 1 ≤ s.length := List.length_pos.mpr h
      have hdrop := ih (s.drop L) (by rw [List.length_drop]; omega)
      refine ⟨?_, ?_, ?_⟩
      · rw [List.flatten_cons, hdrop.1, List.take_append_drop]
      · intro f hf
        rcases List.mem_cons.mp hf with hf | hf
        · subst hf
          rw [List.length_take]
          omega
        · exact hdrop.2.1 f hf
      · intro i hi
        cases i with
        | zero =>
          simp only [List.getD_cons_zero]
          have hne : posChunks L (s.drop L) ≠ [] := by
            intro hc
            rw [hc] at hi
            simp at hi
          have hdne : s.drop L ≠ [] := by
            intro hc
            rw [hc, posChunks_nil L hL] at hne
            exact hne rfl
          have hpos := List.length_pos.mpr hdne
          rw [List.length_drop] at hpos
          rw [List.length_take]
          omega
        | succ i =>
          simp only [List.getD_cons_succ]
          apply hdrop.2.2
          simp only [List.length_cons] at hi
          omega

/-! ### The pipeline -/

theorem fragment_default (s : List Char) :
    fragment_protein_sequence s 1000 = some (posChunks 1000 s) := rfl

theorem process_val (s : List Char) (ov : Nat) (u : List Char) :
    (process_protein_sequence s ov).val u
      = (check_boundary_repeats (posChunks 1000 s)
          (step1_repeats (posChunks 1000 s)) ov).val u := by
  rw [process_protein_sequence]
  rw [dmerge_val, find_new_after_check_mem]
  simp

theorem process_mem (s : List Char) (ov : Nat) (u : List Char) :
    (process_protein_sequence s ov).mem u
      = (check_boundary_repeats (posChunks 1000 s)
          (step1_repeats (posChunks 1000 s)) ov).mem u := by
  rw [process_protein_sequence]
  rw [dmerge_mem, find_new_after_check_mem]
  simp

theorem process_single_val (s : List Char) (hne : s ≠ []) (hlen : s.length ≤ 1000)
    (ov : Nat) (u : List Char) :
    (process_protein_sequence s ov).val u
      = (find_hetero_amino_acid_repeats s).val u := by
  rw [process_val, posChunks_single 1000 (by omega) s hne hlen, check_boundary_val,
    step1_val]
  simp

theorem process_single_mem (s : List Char) (hne : s ≠ []) (hlen : s.length ≤ 1000)
    (ov : Nat) (u : List Char) :
    (process_protein_sequence s ov).mem u
      = (find_hetero_amino_acid_repeats s).mem u := by
  rw [process_mem, posChunks_single 1000 (by omega) s hne hlen, check_boundary_mem,
    step1_mem]
  simp

theorem process_empty_val (ov : Nat) (u : List Char) :
    (process_protein_sequence [] ov).val u = 0 := by
  rw [process_val, posChunks_nil 1000 (by omega), check_boundary_val, step1_val]
  simp

theorem process_empty_mem (ov : Nat) (u : List Char) :
    (process_protein_sequence [] ov).mem u = false := by
  rw [process_mem, posChunks_nil 1000 (by omega), check_boundary_mem, step1_mem]
  simp

/-! ### A concrete 1001-character input whose boundary window holds a repeat -/

/-- Test input: 996 copies of `C` followed by `ABABA` (1001 characters, so the
default fragment length 1000 splits it into two fragments). -/
def c1seq : List Char := List.replicate 996 'C' ++ ['A', 'B', 'A', 'B', 'A']

/-- First fragment of `c1seq` (its first 1000 characters). -/
def c1f1 : List Char := List.replicate 996 'C' ++ ['A', 'B', 'A', 'B']

/-- Second fragment of `c1seq` (the leftover character). -/
def c1f2 : List Char := ['A']

/-- Left overlap slice (last 50 characters of the first fragment). -/
def c1left : List Char := List.replicate 46 'C' ++ ['A', 'B', 'A', 'B']

/-- The overlap region of the single adjacent fragment pair. -/
def c1region : List Char := c1left ++ c1f2

theorem c1f1_length : c1f1.length = 1000 := by
  rw [c1f1, List.length_append, List.length_replicate]
  rfl

theorem c1seq_ne_nil : c1seq ≠ [] := by
  intro h
  have hl := congrArg List.length h
  rw [c1seq, List.length_append, List.length_replicate] at hl
  simp at hl

theorem c1_take : c1seq.take 1000 = c1f1 := by
  rw [c1seq, c1f1, List.take_append_eq_append_take, List.take_replicate,
    List.length_replicate]
  norm_num

theorem c1_drop : c1seq.drop 1000 = c1f2 := by
  rw [c1seq, c1f2, List.drop_append_eq_append_drop, List.drop_replicate,
    List.length_replicate]
  norm_num

theorem c1_chunks : posChunks 1000 c1seq = [c1f1, c1f2] := by
  rw [posChunks_cons 1000 (by omega) c1seq c1seq_ne_nil, c1_take, c1_drop,
    posChunks_single 1000 (by omega) c1f2 (by rw [c1f2]; simp) (by rw [c1f2]; simp)]

theorem c1_left_overlap : left_overlap [c1f1, c1f2] 50 0 = c1left := by
  rw [left_overlap]
  simp only [List.getD_cons_zero]
  rw [if_pos (by rw [c1f1_length]; omega), takeLast, if_neg (by omega), c1f1_length,
    c1f1, c1left, List.drop_append_eq_append_drop, List.drop_replicate,
    List.length_replicate]
  norm_num

theorem c1_right_overlap : right_overlap [c1f1, c1f2] 50 0 = c1f2 := by
  rw [right_overlap]
  simp only [List.getD_cons_succ, List.getD_cons_zero]
  rw [if_neg (by rw [c1f2]; simp)]

theorem occ_ab_c1f1 : occCount ['A', 'B'] c1f1 = 2 := by
  rw [occCount_eq_occAux ['A', 'B'] (by simp) c1f1, c1f1,
    occAux_replicate_skip 'A' 'C' (by decide) ['B'] 996]
  decide

theorem occ_ab_c1f2 : occCount ['A', 'B'] c1f2 = 0 := by decide

theorem occ_ab_c1region : occCount ['A', 'B'] c1region = 2 := by
  rw [occCount_eq_occAux ['A', 'B'] (by simp) c1region, c1region, c1left, c1f2,
    List.append_assoc, occAux_replicate_skip 'A' 'C' (by decide) ['B'] 46]
  decide

theorem occ_ab_c1seq : occCount ['A', 'B'] c1seq = 2 := by
  rw [occCount_eq_occAux ['A', 'B'] (by simp) c1seq, c1seq,
    occAux_replicate_skip 'A' 'C' (by decide) ['B'] 996]
  decide

theorem c1_boundary_table :
    boundary_table [c1f1, c1f2] 50 0 = find_hetero_amino_acid_repeats c1region := by
  rw [boundary_table, c1_left_overlap, c1_right_overlap, c1region]

theorem c1_hit : boundary_hit [c1f1, c1f2] 50 0 ['A', 'B'] = true := by
  rw [boundary_hit, c1_boundary_table, c1_left_overlap, c1_right_overlap,
    Bool.and_eq_true]
  constructor
  · exact (find_hetero_mem c1region ['A', 'B']).mpr
      ⟨by simp, by rw [occ_ab_c1region]; omega⟩
  · decide

theorem c1_step1_val : (step1_repeats [c1f1, c1f2]).val ['A', 'B'] = 2 := by
  rw [step1_val]
  rw [List.map_cons, List.map_cons, List.map_nil, List.sum_cons, List.sum_cons,
    List.sum_nil]
  rw [find_hetero_val, find_hetero_val, occ_ab_c1f1, occ_ab_c1f2]
  norm_num

theorem c1_step2_val :
    (check_boundary_repeats [c1f1, c1f2] (step1_repeats [c1f1, c1f2]) 50).val
      ['A', 'B'] = 4 := by
  rw [check_boundary_val, c1_step1_val]
  have hr : List.range ([c1f1, c1f2].length - 1) = [0] := rfl
  rw [hr]
  rw [List.map_cons, List.map_nil, List.sum_cons, List.sum_nil]
  rw [if_pos c1_hit, c1_boundary_table, find_hetero_val, occ_ab_c1region,
    if_pos (by norm_num)]
  norm_num

/-! ### Claim theorems -/

/-- C1 (counterexample): the pipeline does not count each occurrence of a
qualifying substring exactly once.  On the 1001-character input `c1seq`, the
qualifying substring `AB` (distinct characters) occurs exactly twice, both
occurrences lying entirely inside the first fragment, yet the final Count
Table reports 4: the per-fragment scan counts them and the boundary step
counts them again because they sit inside the overlap window. -/
theorem C1_counterexample :
    (['A', 'B'] : List Char).Nodup ∧ occCount ['A', 'B'] c1seq = 2 ∧
    (process_protein_sequence c1seq 50).val ['A', 'B'] = 4 := by
  refine ⟨by decide, occ_ab_c1seq, ?_⟩
  rw [process_val, c1_chunks, c1_step2_val]

/-- C1 (amended): exact once-per-occurrence counting holds only when the
sequence fits in a single fragment (length ≤ 1000): then the final count of
every substring of length ≥ 2 with at least two occurrences equals its exact
occurrence count, and every other substring is absent (value 0).  With more
than one fragment the boundary step can re-count occurrences lying inside
the overlap window (see the counterexample). -/
theorem C1_amended (s : List Char) (h : s.length ≤ 1000) (ov : Nat) (u : List Char) :
    (process_protein_sequence s ov).val u
      = if 2 ≤ u.length ∧ 1 < occCount u s then occCount u s else 0 := by
  by_cases hne : s = []
  · subst hne
    rw [process_empty_val]
    by_cases hc : 2 ≤ u.length ∧ 1 < occCount u ([] : List Char)
    · exfalso
      have h0 : occCount u ([] : List Char) = 0 :=
        occCount_of_big (by simp only [List.length_nil]; omega)
      omega
    · rw [if_neg hc]
  · rw [process_single_val s hne h ov u, find_hetero_val]

theorem C1_amended_witness :
    (process_protein_sequence ['A', 'B', 'A', 'B'] 50).val ['A', 'B'] = 2 := by
  rw [C1_amended ['A', 'B', 'A', 'B'] (by decide) 50 ['A', 'B']]
  decide

/-- C2 (counterexample): the Scanner of `Hetero_AIML.py` counts substrings
with repeated characters: on input `AAA` it reports the non-heterorepeat key
`AA` with count 2. -/
theorem C2_counterexample :
    (find_hetero_amino_acid_repeats ['A', 'A', 'A']).val ['A', 'A'] = 2 ∧
    ¬(['A', 'A'] : List Char).Nodup := by decide

/-- C2 (amended): the pairwise-distinctness rule holds for the scanners of
`Phase1-2.py` (`find_heterorepeats`) and `temp.py`: a substring with a
repeated character contributes nothing and is absent from their outputs.
`Hetero_AIML.py`'s scanner has no distinctness test. -/
theorem C2_amended (s u : List Char) (h : ¬u.Nodup) :
    (find_heterorepeats s).val u = 0 ∧ (find_heterorepeats s).mem u = false ∧
    (Temp.find_hetero_amino_acid_repeats s).val u = 0 ∧
    (Temp.find_hetero_amino_acid_repeats s).mem u = false := by
  refine ⟨?_, ?_, ?_, ?_⟩
  · rw [find_heterorepeats, distinct_freq_val, if_neg (fun hc => h hc.2)]
  · rw [find_heterorepeats]
    cases hm : (distinct_freq s).mem u
    · rfl
    · exact absurd ((distinct_freq_mem s u).mp hm).2.1 h
  · rw [temp_find_val, if_neg (fun hc => h hc.2.1)]
  · cases hm : (Temp.find_hetero_amino_acid_repeats s).mem u
    · rfl
    · exact absurd ((temp_find_mem s u).mp hm).2.1 h

theorem C2_amended_witness :
    ¬(['A', 'A'] : List Char).Nodup ∧
    (find_heterorepeats ['A', 'A', 'A']).val ['A', 'A'] = 0 :=
  ⟨by decide, (C2_amended ['A', 'A', 'A'] ['A', 'A'] (by decide)).1⟩

/-- C3 (counterexample): the Scanner of `Hetero_AIML.py` does not return raw
counts: on input `AB` the substring `AB` occurs once, but the scanner's
output does not contain the count-1 entry — the count > 1 filter runs inside
the scanner, per invocation. -/
theorem C3_counterexample :
    occCount ['A', 'B'] ['A', 'B'] = 1 ∧
    (find_hetero_amino_acid_repeats ['A', 'B']).mem ['A', 'B'] = false := by decide

/-- C3 (amended): only `Phase1-2.py`'s `find_heterorepeats` returns raw
occurrence counts including count-1 entries; the scanners of `Hetero_AIML.py`
and `temp.py` filter to count > 1 internally at every invocation — hence per
fragment and per overlap region, before contributions are summed. -/
theorem C3_amended (s u : List Char) :
    ((find_hetero_amino_acid_repeats s).mem u = true →
      1 < (find_hetero_amino_acid_repeats s).val u) ∧
    ((Temp.find_hetero_amino_acid_repeats s).mem u = true →
      1 < (Temp.find_hetero_amino_acid_repeats s).val u) ∧
    ((find_heterorepeats s).val u
      = if 2 ≤ u.length ∧ u.Nodup then occCount u s else 0) := by
  refine ⟨?_, ?_, ?_⟩
  · intro hm
    obtain ⟨h2, hocc⟩ := (find_hetero_mem s u).mp hm
    rw [find_hetero_val, if_pos ⟨h2, hocc⟩]
    exact hocc
  · intro hm
    obtain ⟨h2, hnd, hocc⟩ := (temp_find_mem s u).mp hm
    rw [temp_find_val, if_pos ⟨h2, hnd, hocc⟩]
    exact hocc
  · rw [find_heterorepeats, distinct_freq_val]

theorem C3_amended_witness :
    1 < (find_hetero_amino_acid_repeats ['A', 'A', 'A']).val ['A', 'A'] ∧
    1 < (Temp.find_hetero_amino_acid_repeats ['A', 'B', 'A', 'B']).val ['A', 'B'] ∧
    (find_heterorepeats ['A', 'B']).val ['A', 'B']
      = if 2 ≤ (['A', 'B'] : List Char).length ∧ (['A', 'B'] : List Char).Nodup
        then occCount ['A', 'B'] ['A', 'B'] else 0 :=
  ⟨(C3_amended ['A', 'A', 'A'] ['A', 'A']).1 (by decide),
   (C3_amended ['A', 'B', 'A', 'B'] ['A', 'B']).2.1 (by decide),
   (C3_amended ['A', 'B'] ['A', 'B']).2.2⟩

/-- C9 (counterexample): the Fragmenter does not fail for every
non-positive maximum length: with `max_length = -1` it silently returns the
empty fragment list instead of raising. -/
theorem C9_counterexample :
    fragment_protein_sequence ['A'] (-1) = some [] := rfl

/-- C9 (amended): the Fragmenter raises only for `max_length = 0` (Python's
`range` rejects a zero step); for every negative `max_length` it silently
returns `[]` because `range(0, n, negative)` is empty. -/
theorem C9_amended (s : List Char) :
    fragment_protein_sequence s 0 = none ∧
    ∀ L : Int, L < 0 → fragment_protein_sequence s L = some [] := by
  constructor
  · rfl
  · intro L hL
    rw [fragment_protein_sequence, if_neg (by omega), if_pos hL]

theorem C9_amended_witness :
    fragment_protein_sequence ['A', 'B'] 0 = none ∧
    fragment_protein_sequence ['A', 'B'] (-2) = some [] :=
  ⟨(C9_amended ['A', 'B']).1, (C9_amended ['A', 'B']).2 (-2) (by decide)⟩

/-- C10: in `process_protein_sequence` the table returned by
`find_new_boundary_repeats` (step 3) is always empty — every key passing the
membership test was already inserted by `check_boundary_repeats` (step 2),
so `substring not in final_repeats` never holds — and therefore step 4's
merge leaves the final table equal to the step-2 table. -/
theorem C10_new_boundary_empty (sequence : List Char) (overlap : Nat) (u : List Char) :
    (find_new_boundary_repeats (posChunks 1000 sequence)
        (check_boundary_repeats (posChunks 1000 sequence)
          (step1_repeats (posChunks 1000 sequence)) overlap) overlap).val u = 0 ∧
    (find_new_boundary_repeats (posChunks 1000 sequence)
        (check_boundary_repeats (posChunks 1000 sequence)
          (step1_repeats (posChunks 1000 sequence)) overlap) overlap).mem u = false ∧
    (process_protein_sequence sequence overlap).val u
      = (check_boundary_repeats (posChunks 1000 sequence)
          (step1_repeats (posChunks 1000 sequence)) overlap).val u ∧
    (process_protein_sequence sequence overlap).mem u
      = (check_boundary_repeats (posChunks 1000 sequence)
          (step1_repeats (posChunks 1000 sequence)) overlap).mem u :=
  ⟨find_new_after_check_val _ _ _ _, find_new_after_check_mem _ _ _ _,
   process_val _ _ _, process_mem _ _ _⟩

theorem spansB_iff (u l r : List Char) :
    spansB u l r = true ↔ (∃ a ∈ u, a ∈ l) ∧ (∃ a ∈ u, a ∈ r) := by
  rw [spansB, Bool.and_eq_true, List.any_eq_true, List.any_eq_true]
  simp [List.contains]

/-- C5: for each adjacent fragment pair, the boundary check adds the key's
overlap-region count to the running table exactly when the key is in the
region's scan table and the character-set membership test passes: the
substring has a character occurring in the left overlap slice and a
character occurring in the right overlap slice.  The test is membership of
characters, not positional crossing. -/
theorem C5_boundary_membership (fragments : List (List Char)) (T : PyDict)
    (overlap : Nat) (u : List Char) :
    (check_boundary_repeats fragments T overlap).val u
      = T.val u + ((List.range (fragments.length - 1)).map (fun i =>
          if (boundary_table fragments overlap i).mem u = true
             ∧ (∃ a ∈ u, a ∈ left_overlap fragments overlap i)
             ∧ (∃ a ∈ u, a ∈ right_overlap fragments overlap i)
          then (boundary_table fragments overlap i).val u else 0)).sum := by
  rw [check_boundary_val]
  congr 1
  congr 1
  apply List.map_congr_left
  intro i _
  by_cases hb : boundary_hit fragments overlap i u
  · rw [if_pos hb]
    rw [boundary_hit, Bool.and_eq_true] at hb
    obtain ⟨hs1, hs2⟩ := (spansB_iff _ _ _).mp hb.2
    rw [if_pos ⟨hb.1, hs1, hs2⟩]
  · rw [if_neg hb, if_neg]
    intro hc
    apply hb
    rw [boundary_hit, Bool.and_eq_true]
    exact ⟨hc.1, (spansB_iff _ _ _).mpr ⟨hc.2.1, hc.2.2⟩⟩

/-- Modelled from the spec (§4.2/§4.4): Scanner restricted to
pairwise-distinct substrings followed by the final filter — compare with the
code's pipeline, claim C4. -/
theorem specScannerFiltered_val (s u : List Char) :
    (specScannerFiltered s).val u
      = if 2 ≤ u.length ∧ u.Nodup ∧ 2 ≤ occCount u s then occCount u s else 0 := rfl

/-- C4 (counterexample): two failures.  The empty sequence has length
0 ≤ 1000 yet fragments to zero fragments, not one; and on `AAA` (single
fragment) the pipeline's table contains `AA ↦ 2`, while the spec's Scanner
(distinct characters only) followed by the final filter yields no entry —
the pipeline does not refine the spec's Scanner semantics. -/
theorem C4_counterexample :
    fragment_protein_sequence [] 1000 = some [] ∧
    (process_protein_sequence ['A', 'A', 'A'] 50).val ['A', 'A'] = 2 ∧
    (specScannerFiltered ['A', 'A', 'A']).val ['A', 'A'] = 0 := by
  refine ⟨rfl, ?_, by decide⟩
  decide

/-- C4 (amended): for every nonempty sequence of length ≤ 1000 the
Fragmenter produces exactly one fragment, and the pipeline's final table
equals the output of the program's own scanner
(`find_hetero_amino_acid_repeats`, which applies the count > 1 filter but no
distinctness test) on the whole sequence; the empty sequence fragments to
zero fragments and both sides are empty. -/
theorem C4_amended (s : List Char) (h1 : s ≠ []) (h2 : s.length ≤ 1000) (ov : Nat) :
    posChunks 1000 s = [s] ∧
    ∀ u, (process_protein_sequence s ov).val u
        = (find_hetero_amino_acid_repeats s).val u ∧
      (process_protein_sequence s ov).mem u
        = (find_hetero_amino_acid_repeats s).mem u :=
  ⟨posChunks_single 1000 (by omega) s h1 h2,
   fun u => ⟨process_single_val s h1 h2 ov u, process_single_mem s h1 h2 ov u⟩⟩

theorem C4_amended_witness :
    posChunks 1000 ['A', 'A', 'A'] = [['A', 'A', 'A']] ∧
    (process_protein_sequence ['A', 'A', 'A'] 17).val ['A', 'A']
      = (find_hetero_amino_acid_repeats ['A', 'A', 'A']).val ['A', 'A'] := by
  have h := C4_amended ['A', 'A', 'A'] (by decide) (by decide) 17
  exact ⟨h.1, (h.2 ['A', 'A']).1⟩

/-! ### Uniqueness of the repeat in `ABCAB` -/

theorem exists_two_hits {p : Nat → Bool} {m : Nat}
    (h : 2 ≤ (List.range m).countP p) :
    ∃ i j, i < j ∧ j < m ∧ p i = true ∧ p j = true := by
  rw [List.countP_eq_length_filter] at h
  have hnd : ((List.range m).filter p).Nodup := (List.nodup_range m).filter p
  have h1 : (List.range m).filter p ≠ [] := by
    intro hc
    rw [hc] at h
    simp at h
  obtain ⟨x, l1, hx⟩ := List.exists_cons_of_ne_nil h1
  have h2 : l1 ≠ [] := by
    intro hc
    rw [hx, hc] at h
    simp at h
  obtain ⟨y, l2, hy⟩ := List.exists_cons_of_ne_nil h2
  have hxy : x ≠ y := by
    rw [hx, hy] at hnd
    rcases List.nodup_cons.mp hnd with ⟨hnx, -⟩
    intro hc
    exact hnx (hc ▸ List.mem_cons_self _ _)
  have hxm : x ∈ (List.range m).filter p := by
    rw [hx]
    exact List.mem_cons_self _ _
  have hym : y ∈ (List.range m).filter p := by
    rw [hx, hy]
    simp
  rw [List.mem_filter, List.mem_range] at hxm hym
  rcases Nat.lt_or_ge x y with hlt | hge
  · exact ⟨x, y, hlt, hym.1, hxm.2, hym.2⟩
  · have hyx : y < x := by omega
    exact ⟨y, x, hyx, hxm.1, hym.2, hxm.2⟩

theorem abcab_unique (u : List Char) (h2 : 2 ≤ u.length)
    (hocc : 2 ≤ occCount u ['A', 'B', 'C', 'A', 'B']) : u = ['A', 'B'] := by
  obtain ⟨i, j, hij, hjm, hpi, hpj⟩ := exists_two_hits hocc
  simp only [decide_eq_true_eq] at hpi hpj
  simp only [List.length_cons, List.length_nil] at hjm
  have key : ∀ len ∈ List.range 6, ∀ i ∈ List.range 6, ∀ j ∈ List.range 6,
      2 ≤ len → i < j → j < 5 - len + 1 →
      substr ['A', 'B', 'C', 'A', 'B'] i len = substr ['A', 'B', 'C', 'A', 'B'] j len →
      substr ['A', 'B', 'C', 'A', 'B'] i len = ['A', 'B'] := by decide
  have hlen : u.length < 6 := by omega
  have hu := key u.length (List.mem_range.mpr hlen) i (List.mem_range.mpr (by omega))
    j (List.mem_range.mpr (by omega)) h2 hij (by omega) (hpi.trans hpj.symm)
  rw [hpi] at hu
  exact hu

/-- C6: on input `ABCAB` (a single fragment under the default maximum
length 1000) the pipeline's final Count Table is exactly the single entry
`AB ↦ 2`: `AB` has value 2, and every key present in the table is `AB`. -/
theorem C6_abcab_table :
    (process_protein_sequence ['A', 'B', 'C', 'A', 'B'] 50).val ['A', 'B'] = 2 ∧
    ∀ u, (process_protein_sequence ['A', 'B', 'C', 'A', 'B'] 50).mem u = true →
      u = ['A', 'B'] := by
  constructor
  · rw [process_single_val ['A', 'B', 'C', 'A', 'B'] (by decide) (by decide) 50
      ['A', 'B'], find_hetero_val]
    decide
  · intro u hm
    rw [process_single_mem ['A', 'B', 'C', 'A', 'B'] (by decide) (by decide) 50 u] at hm
    obtain ⟨h2, hocc⟩ := (find_hetero_mem _ _).mp hm
    exact abcab_unique u h2 hocc

theorem C6_abcab_table_witness :
    (process_protein_sequence ['A', 'B', 'C', 'A', 'B'] 50).val ['A', 'B'] = 2 ∧
    (['A', 'B'] : List Char) = ['A', 'B'] :=
  ⟨C6_abcab_table.1, C6_abcab_table.2 ['A', 'B'] (by decide)⟩

/-- C7: every key present in the pipeline's final Count Table has length ≥ 2
and count ≥ 2 strictly, for every input sequence and overlap size. -/
theorem C7_filter_invariant (s : List Char) (ov : Nat) (u : List Char)
    (h : (process_protein_sequence s ov).mem u = true) :
    2 ≤ u.length ∧ 2 ≤ (process_protein_sequence s ov).val u := by
  rw [process_mem] at h
  rw [process_val, check_boundary_val]
  rw [check_boundary_mem, Bool.or_eq_true] at h
  rcases h with h1 | h1
  · rw [step1_mem, List.any_eq_true] at h1
    obtain ⟨f, hf, hmf⟩ := h1
    obtain ⟨h2, hocc⟩ := (find_hetero_mem f u).mp hmf
    refine ⟨h2, ?_⟩
    have hx : (find_hetero_amino_acid_repeats f).val u
        ∈ (posChunks 1000 s).map (fun f => (find_hetero_amino_acid_repeats f).val u) :=
      List.mem_map_of_mem _ hf
    have hle := List.single_le_sum (fun x hxm => Nat.zero_le x) _ hx
    rw [find_hetero_val, if_pos ⟨h2, hocc⟩] at hle
    rw [step1_val]
    omega
  · rw [List.any_eq_true] at h1
    obtain ⟨i, hi, hhit⟩ := h1
    have hh := hhit
    rw [boundary_hit, Bool.and_eq_true] at hh
    have hbm := hh.1
    rw [boundary_table] at hbm
    obtain ⟨h2, hocc⟩ := (find_hetero_mem _ _).mp hbm
    refine ⟨h2, ?_⟩
    have hx : (if boundary_hit (posChunks 1000 s) ov i u
        then (boundary_table (posChunks 1000 s) ov i).val u else 0)
        ∈ (List.range ((posChunks 1000 s).length - 1)).map (fun i =>
            if boundary_hit (posChunks 1000 s) ov i u
            then (boundary_table (posChunks 1000 s) ov i).val u else 0) :=
      List.mem_map_of_mem _ hi
    have hle := List.single_le_sum (fun x hxm => Nat.zero_le x) _ hx
    rw [if_pos hhit, boundary_table, find_hetero_val, if_pos ⟨h2, hocc⟩] at hle
    omega

theorem C7_filter_invariant_witness :
    2 ≤ (['A', 'B'] : List Char).length ∧
    2 ≤ (process_protein_sequence ['A', 'B', 'C', 'A', 'B'] 50).val ['A', 'B'] :=
  C7_filter_invariant ['A', 'B', 'C', 'A', 'B'] 50 ['A', 'B'] (by decide)

/-- C8: for every sequence and every maximum fragment length `L ≥ 1`, the
Fragmenter succeeds with an ordered fragment list whose in-order
concatenation is the original sequence, in which every fragment has length
at most `L` and every fragment except possibly the last has length exactly
`L`. -/
theorem C8_fragmenter (s : List Char) (L : Int) (hL : 1 ≤ L) :
    ∃ fs, fragment_protein_sequence s L = some fs ∧
      fs.flatten = s ∧ (∀ f ∈ fs, f.length ≤ L.toNat) ∧
      ∀ i, i + 1 < fs.length → (fs.getD i []).length = L.toNat := by
  refine ⟨posChunks L.toNat s, ?_, ?_⟩
  · rw [fragment_protein_sequence, if_neg (by omega), if_neg (by omega)]
  · exact posChunks_spec L.toNat (by omega) s.length s le_rfl

theorem C8_fragmenter_witness :
    ∃ fs, fragment_protein_sequence ['A', 'B', 'C', 'D', 'E'] 3 = some fs ∧
      fs.flatten = ['A', 'B', 'C', 'D', 'E'] ∧
      (∀ f ∈ fs, f.length ≤ (3 : Int).toNat) ∧
      ∀ i, i + 1 < fs.length → (fs.getD i []).length = (3 : Int).toNat :=
  C8_fragmenter ['A', 'B', 'C', 'D', 'E'] 3 (by decide)
